import Mathlib

/-! Verification development for the `tree_drawing` repository
(`src/tree_drawing/tree.py`).

The embedding models:
* the serialized record format (a JSON-like dict with optional `"content"`
  and `"options"` keys, each option entry optionally carrying `"value"` and
  `"tree"` keys) as the mutual inductives `Rec` / `RList`;
* `Tree.__init__` as `fromRec` / `fromOpts` (Python dict semantics for the
  children mapping: a repeated label keeps its first position and the last
  value; a missing `"value"` or `"tree"` key raises, re-raised as a
  `KeyError` with a fixed message, modelled as `SchemaError.mk`);
* `Tree.parse_python` as `parsePython` (fuel-indexed, the fuel is never
  exhausted on the inputs considered), together with faithful models of the
  regular expressions it uses;
* `Tree.compute_total_width` / `compute_total_height` and the edge-label
  geometry of `Tree.plot` over `ℚ`.
-/

namespace TreeDrawing

/-! Section: Serialized record format -/

mutual

inductive Rec : Type where
  | leafR (content : Option String) : Rec
  | nodeR (content : Option String) (options : RList) : Rec

inductive RList : Type where
  | nil : RList
  | consT (value : Option String) (tree : Rec) (rest : RList) : RList
  | consN (value : Option String) (rest : RList) : RList

end

/-! Section: The Tree data structure

`Tree.__init__` stores `self.json` (the serialized input record),
`self.content`, the children dict, and the derived `width` / `height`. -/

mutual

inductive Tree : Type where
  | mk (json : Rec) (content : String) (children : TList)
      (width : Nat) (height : Nat) : Tree

inductive TList : Type where
  | nil : TList
  | cons (label : String) (child : Tree) (rest : TList) : TList

end

def Tree.json : Tree → Rec
  | .mk j _ _ _ _ => j

def Tree.content : Tree → String
  | .mk _ c _ _ _ => c

def Tree.children : Tree → TList
  | .mk _ _ ch _ _ => ch

def Tree.width : Tree → Nat
  | .mk _ _ _ w _ => w

def Tree.height : Tree → Nat
  | .mk _ _ _ _ h => h

/-! Section: Children-dict operations (Python `dict` semantics) -/

def TList.lookup : TList → String → Option Tree
  | .nil, _ => none
  | .cons k t rest, k2 => if k = k2 then some t else TList.lookup rest k2

/-- Replace the value of every entry whose label is `k` (mirrors Python's
re-assignment of an existing dict key: position kept, value updated). -/
def TList.replaceKey : TList → String → Tree → TList
  | .nil, _, _ => .nil
  | .cons a b rest, k, v =>
      if a = k then .cons k v (TList.replaceKey rest k v)
      else .cons a b (TList.replaceKey rest k v)

def TList.snoc : TList → String → Tree → TList
  | .nil, k, v => .cons k v .nil
  | .cons a b rest, k, v => .cons a b (TList.snoc rest k v)

/-- One Python dict insertion: an existing key keeps its position and gets
the new value, a new key is appended at the end. -/
def dictInsert (d : TList) (k : String) (v : Tree) : TList :=
  if (TList.lookup d k).isSome then TList.replaceKey d k v else TList.snoc d k v

def buildDict (ps : List (String × Tree)) : TList :=
  ps.foldl (fun d p => dictInsert d p.1 p.2) .nil

def TList.length : TList → Nat
  | .nil => 0
  | .cons _ _ rest => TList.length rest + 1

def TList.sumWidth : TList → Nat
  | .nil => 0
  | .cons _ t rest => Tree.width t + TList.sumWidth rest

/-- Models `max([x.height for x in children.values()], default=0)`. -/
def TList.maxHeight : TList → Nat
  | .nil => 0
  | .cons _ t rest => max (Tree.height t) (TList.maxHeight rest)

def TList.keysNodup : TList → Bool
  | .nil => true
  | .cons k _ rest => !(TList.lookup rest k).isSome && TList.keysNodup rest

def TList.toList : TList → List (String × Tree)
  | .nil => []
  | .cons k t rest => (k, t) :: TList.toList rest

/-! Section: `Tree.__init__` -/

/-- The `KeyError("Each of the options must have a value and a tree key.")`
raised by `Tree.__init__` (the spec's `SchemaError`). -/
inductive SchemaError : Type where
  | mk : SchemaError

/-- The common tail of `Tree.__init__`:
`self.json = dumps(dic)`, `self.content = str(dic.get("content", ""))`,
`self.height = max([x.height for x in children.values()], default=0) + 1`,
`self.width = sum(...) if children else 1`. -/
def mkNode (j : Rec) (c : Option String) (children : TList) : Tree :=
  Tree.mk j (c.getD "") children
    (match children with
      | .nil => 1
      | _ => TList.sumWidth children)
    (TList.maxHeight children + 1)

mutual

/-- Models `Tree.__init__` on a record: build every option entry's child
(`{x["value"]: Tree(x["tree"]) for x in dic.get("options", [])}`), then the
derived fields. A record without an `"options"` key behaves like an empty
options list. -/
def fromRec : Rec → Except SchemaError Tree
  | .leafR c => .ok (mkNode (.leafR c) c .nil)
  | .nodeR c opts =>
      match fromOpts opts with
      | .error e => .error e
      | .ok ps => .ok (mkNode (.nodeR c opts) c (buildDict ps))

/-- The `(x["value"], Tree(x["tree"]))` pairs of the dict comprehension, in
order and before dict deduplication; a missing key raises. -/
def fromOpts : RList → Except SchemaError (List (String × Tree))
  | .nil => .ok []
  | .consT none _ _ => .error .mk
  | .consT (some k) r rest =>
      match fromRec r with
      | .error e => .error e
      | .ok child =>
          match fromOpts rest with
          | .error e => .error e
          | .ok tail => .ok ((k, child) :: tail)
  | .consN _ _ => .error .mk

end

/-- Serialization: `Tree.to_json` writes `self.json`, the record the node was built from. -/
def serialize (t : Tree) : Rec := Tree.json t

/-! Section: `Tree.parse_python`

The parser works line by line with Python regexes whose only metacharacters
are `^`, `\b`, `\s`, `\s+`, `(.+)` and literal text, modelled below over
`List Char`. -/

/-- Python's `\s` character class (`str.strip` uses the same set). -/
def isPySpace (c : Char) : Bool :=
  c == ' ' || c == '\t' || c == '\n' || c == '\r' || c == '\x0b' || c == '\x0c'

/-- Python's `\w` character class (ASCII part; the inputs considered are
ASCII). -/
def isWordChar (c : Char) : Bool :=
  c.isAlphanum || c == '_'

/-- Drop a literal leading pattern, `none` when the line does not start
with it. -/
def chopPre : List Char → List Char → Option (List Char)
  | [], rest => some rest
  | _, [] => none
  | p :: ps, c :: cs => if p = c then chopPre ps cs else none

/-- Models `re.search(r"^(\s*)", code[0]).group(1)`: the leading whitespace run. -/
def takeWS (s : List Char) : List Char := s.takeWhile isPySpace

/-- Python `str.strip()`. -/
def stripChars (s : List Char) : List Char :=
  ((s.dropWhile isPySpace).reverse.dropWhile isPySpace).reverse

/-- Models `"\n".join(lines)`. -/
def joinNL : List (List Char) → List Char
  | [] => []
  | [x] => x
  | x :: rest => x ++ '\n' :: joinNL rest

/-- The group of a greedy `(.+):` anchored at the start of `xs`: the prefix
of `xs` before its last colon at index ≥ 1 (`(.+)` needs at least one
character), `none` when no such colon exists. -/
def lastColonSplit : List Char → Option (List Char)
  | [] => none
  | [_] => none
  | c :: rest =>
      match lastColonSplit rest with
      | some g => some (c :: g)
      | none => if rest.head? = some ':' then some [c] else none

/-- Backtracking for `\s+(.+):`: try consuming `k` whitespace characters,
largest `k` first. -/
def tryWsK : Nat → List Char → Option (List Char)
  | 0, _ => none
  | k + 1, xs =>
      match lastColonSplit (xs.drop (k + 1)) with
      | some g => some g
      | none => tryWsK k xs

/-- The group of `\s+(.+):` anchored at the start of `xs`. -/
def wsPlusGroup (xs : List Char) : Option (List Char) :=
  tryWsK (takeWS xs).length xs

/-- Models `re.search(f"^{indent}if\\b", line)` as a Boolean. -/
def matchKwIf (indent line : List Char) : Bool :=
  match chopPre (indent ++ ['i', 'f']) line with
  | none => false
  | some [] => true
  | some (c :: _) => !isWordChar c

/-- Models `re.search(f"^{indent}if\\s(.+):", line)`, returning group 1. -/
def matchIfClause (indent line : List Char) : Option (List Char) :=
  match chopPre (indent ++ ['i', 'f']) line with
  | none => none
  | some [] => none
  | some (c :: rest) => if isPySpace c then lastColonSplit rest else none

/-- Models `re.search(f"^{indent}\\s+", line)` as a Boolean. -/
def matchBody (indent line : List Char) : Bool :=
  match chopPre indent line with
  | none => false
  | some [] => false
  | some (c :: _) => isPySpace c

/-- Models `re.search(f"^{indent}elif\\s+(.+):", line)`, returning group 1. -/
def matchElif (indent line : List Char) : Option (List Char) :=
  match chopPre (indent ++ ['e', 'l', 'i', 'f']) line with
  | none => none
  | some rest => wsPlusGroup rest

/-- Models `re.search(f"^{indent}else", line)` as a Boolean. -/
def matchElse (indent line : List Char) : Bool :=
  (chopPre (indent ++ ['e', 'l', 's', 'e']) line).isSome

/-- The loop state of `parse_python`. -/
structure PSt : Type where
  permeated : List (List Char)
  subtrees : List (Option (List Char) × List (List Char))
  initialClause : Option (List Char)
  curClause : Option (List Char)
  curSubtree : List (List Char)
  start : Bool

/-- One iteration of the `for line in code` loop of `parse_python`, with
its `if`/`elif` chain in source order; a line matching no branch is
ignored. -/
def step (indent : List Char) (st : PSt) (line : List Char) : PSt :=
  if st.start = false && matchKwIf indent line = false then
    { st with permeated := st.permeated ++ [line] }
  else
    match matchIfClause indent line with
    | some g =>
        { st with
          curClause := some g
          initialClause :=
            match st.initialClause with
            | none => some g
            | some x => some x
          start := true }
    | none =>
        if st.start && matchBody indent line then
          { st with curSubtree := st.curSubtree ++ [line] }
        else
          match (if st.start then matchElif indent line else none) with
          | some g =>
              { st with
                subtrees := st.subtrees ++ [(st.curClause, st.curSubtree)]
                curClause := some g
                curSubtree := [] }
          | none =>
              if st.start && matchElse indent line then
                { st with
                  subtrees := st.subtrees ++ [(st.curClause, st.curSubtree)]
                  curClause := some ['e', 'l', 's', 'e']
                  curSubtree := [] }
              else st

/-- Errors a `parse_python` run can surface: `code[0]` on a zero-line input
raises `IndexError`; `fuelOut` marks fuel exhaustion of the embedding and
is never reached with the generous fuel of `parsePythonTop`. -/
inductive PErr : Type where
  | indexError : PErr
  | fuelOut : PErr

mutual

/-- Models `Tree.parse_python(code, permeated)`. -/
def parsePython : Nat → List (List Char) → List (List Char) →
    Except PErr Rec
  | 0, _, _ => .error .fuelOut
  | _ + 1, [], _ => .error .indexError
  | fuel + 1, line0 :: rest, permeated0 =>
      let indent := takeWS line0
      let st := (line0 :: rest).foldl (step indent)
        (PSt.mk permeated0 [] none none [] false)
      let allSub := st.subtrees ++ [(st.curClause, st.curSubtree)]
      let kept := allSub.filter (fun x => !List.isEmpty x.2)
      match buildOptions fuel st.permeated kept with
      | .error e => .error e
      | .ok opts =>
          match st.initialClause with
          | some ic => .ok (.nodeR (some (String.mk (stripChars ic))) opts)
          | none =>
              .ok (.leafR (some (String.mk
                (joinNL (st.permeated.map stripChars)))))

/-- The list comprehension
`[{"value": x[0], "tree": Tree.parse_python(x[1], permeated[:])}
  for x in subtrees if x[1]]` (the `if x[1]` filter is applied before the
call). -/
def buildOptions : Nat → List (List Char) →
    List (Option (List Char) × List (List Char)) → Except PErr RList
  | 0, _, _ => .error .fuelOut
  | _ + 1, _, [] => .ok .nil
  | fuel + 1, permeated, (cl, body) :: rest =>
      match parsePython fuel body permeated with
      | .error e => .error e
      | .ok r =>
          match buildOptions fuel permeated rest with
          | .error e => .error e
          | .ok rl => .ok (.consT (cl.map String.mk) r rl)

end

/-- Models `Tree.parse_python(code)` with the default `permeated = []` and fuel
ample for the recursion depth (each recursive call receives a strictly
shorter line list, so depth is at most `code.length`). -/
def parsePythonTop (code : List String) : Except PErr Rec :=
  parsePython (2 * code.length + 2) (code.map String.toList) []

/-! Section: Layout geometry (`Tree.compute_total_width`, `Tree.plot`)

Numeric parameters are modelled over `ℚ` (Python mixes `int` and `float`
arithmetic; everything `plot` computes is rational in its inputs). -/

/-- Models `self.width * node_width + (self.width - 1) * gap_width`. -/
def Tree.compute_total_width (t : Tree) (node_width gap_width : ℚ) : ℚ :=
  (Tree.width t : ℚ) * node_width + ((Tree.width t : ℚ) - 1) * gap_width

/-- Models `self.height * node_height + (self.height - 1) * gap_height`. -/
def Tree.compute_total_height (t : Tree) (node_height gap_height : ℚ) : ℚ :=
  (Tree.height t : ℚ) * node_height + ((Tree.height t : ℚ) - 1) * gap_height

/-- The ellipse center `plot` draws a node at:
`(total_width / 2 + x_init, -node_height / 2 + y_init)`. -/
def nodeCenter (t : Tree) (nW nH gW : ℚ) (xInit yInit : ℚ) : ℚ × ℚ :=
  (Tree.compute_total_width t nW gW / 2 + xInit, -nH / 2 + yInit)

/-- What the `for name, child in self.children.items()` loop of `plot`
computes for one edge: the raw midpoint `x_label`, the text anchor actually
passed to `ax.text` (`x_label ± 2`, `y_label`), its alignment, the label
text, the child, and the `(x_init, y_init)` passed to `child.plot`. -/
structure EdgeRec : Type where
  xLabel : ℚ
  textPos : ℚ × ℚ
  leftAligned : Bool
  labelName : String
  child : Tree
  childInit : ℚ × ℚ

/-- The edge loop of `plot`, carrying `x_exit` exactly as the source does
(`x_exit` starts at `x_init` and grows by each child's total width plus
`gap_width`). -/
def edgeGo (ptw nW nH gW gH xInit yInit : ℚ) :
    TList → ℚ → List EdgeRec
  | .nil, _ => []
  | .cons name child rest, xExit =>
      let ctw := Tree.compute_total_width child nW gW
      let xLabel := (ptw / 2 + xInit + xExit + ctw / 2) / 2
      let yLabel := -nH - gH / 2 + yInit
      let e :=
        if xLabel > ptw / 2 + xInit then
          EdgeRec.mk xLabel (xLabel + 2, yLabel) true name child
            (xExit, yInit - nH - gH)
        else
          EdgeRec.mk xLabel (xLabel - 2, yLabel) false name child
            (xExit, yInit - nH - gH)
      e :: edgeGo ptw nW nH gW gH xInit yInit rest (xExit + ctw + gW)

/-- All edge records one `plot` invocation emits for its own children. -/
def edgeRecs (t : Tree) (nW nH gW gH xInit yInit : ℚ) : List EdgeRec :=
  edgeGo (Tree.compute_total_width t nW gW) nW nH gW gH xInit yInit
    (Tree.children t) xInit

/-! Section: Predicates used by the statements -/

/-- The §3 node invariants, hereditarily: a childless node has
`width = height = 1`; a node with children has `width` the sum and
`height` one plus the maximum of its children's; both are at least 1. -/
inductive TreeInv : Tree → Prop where
  | intro (j : Rec) (c : String) (children : TList) (w h : Nat)
      (hnil : children = .nil → w = 1 ∧ h = 1)
      (hne : children ≠ .nil →
        w = TList.sumWidth children ∧ h = 1 + TList.maxHeight children)
      (hw : 1 ≤ w) (hh : 1 ≤ h)
      (hrec : ∀ p ∈ TList.toList children, TreeInv p.2) :
      TreeInv (Tree.mk j c children w h)

mutual

/-- Every option entry, recursively, carries both a `"value"` and a
`"tree"` key: exactly the records `Tree.__init__` accepts. -/
def goodRec : Rec → Bool
  | .leafR _ => true
  | .nodeR _ opts => goodOpts opts

/-- See `goodRec`. -/
def goodOpts : RList → Bool
  | .nil => true
  | .consT none _ _ => false
  | .consT (some _) r rest => goodRec r && goodOpts rest
  | .consN _ _ => false

end

/-- Some entry of this options list lacks its `"value"` or its `"tree"`
key. -/
def hasBadEntry : RList → Bool
  | .nil => false
  | .consT none _ _ => true
  | .consT (some _) _ rest => hasBadEntry rest
  | .consN _ _ => true

def exOk {α : Type} : Except SchemaError α → Bool
  | .ok _ => true
  | .error _ => false

/-- The `"content"` field of a record, when the key is present. -/
def recContent : Rec → Option String
  | .leafR c => c
  | .nodeR c _ => c

/-- The last pair with a given key in the comprehension's pair list — the
value a Python dict retains for a duplicated key. -/
def lastVal : List (String × Tree) → String → Option Tree
  | [], _ => none
  | p :: rest, k =>
      match lastVal rest k with
      | some v => some v
      | none => if p.1 = k then some p.2 else none

/-- The `"tree"` record of the last options entry whose `"value"` is `k`. -/
def lastTreeRec : RList → String → Option Rec
  | .nil, _ => none
  | .consT (some v) r rest, k =>
      match lastTreeRec rest k with
      | some r2 => some r2
      | none => if v = k then some r else none
  | .consT none _ rest, k => lastTreeRec rest k
  | .consN _ rest, k => lastTreeRec rest k

/-- Value `optOr a b` is `a` unless it is `none`. -/
def optOr {α : Type} : Option α → Option α → Option α
  | some x, _ => some x
  | none, b => b

/-- The sum of `compute_total_width` over a children list. -/
def sumTotalWidth : TList → ℚ → ℚ → ℚ
  | .nil, _, _ => 0
  | .cons _ c rest, nW, gW =>
      Tree.compute_total_width c nW gW + sumTotalWidth rest nW gW

def exToOption {α : Type} : Except SchemaError α → Option α
  | .ok a => some a
  | .error _ => none

def RList.length : RList → Nat
  | .nil => 0
  | .consT _ _ rest => RList.length rest + 1
  | .consN _ rest => RList.length rest + 1

/-! Section: Concrete instances used by the witnesses -/

/-- Tree `Leaf{"x"}` as constructed from `{"content": "x"}`. -/
def leafX : Tree := Tree.mk (.leafR (some "x")) "x" .nil 1 1

/-- Tree `Leaf{"y"}` as constructed from `{"content": "y"}`. -/
def leafY : Tree := Tree.mk (.leafR (some "y")) "y" .nil 1 1

/-- The record `parse_python` produces for
`["if a:", "    x", "else:", "    y"]`. -/
def rec2 : Rec :=
  .nodeR (some "a") (.consT (some "a") (.leafR (some "x"))
    (.consT (some "else") (.leafR (some "y")) .nil))

/-- The tree `Tree.__init__` builds from `rec2`. -/
def tree2 : Tree :=
  Tree.mk rec2 "a" (.cons "a" leafX (.cons "else" leafY .nil)) 2 2

/-- Tree `Leaf{"z"}`. -/
def leafZ : Tree := Tree.mk (.leafR (some "z")) "z" .nil 1 1

/-- A one-child branch record. -/
def recW : Rec := .nodeR (some "c") (.consT (some "k") (.leafR (some "z")) .nil)

/-- The tree built from `recW`. -/
def treeW : Tree := Tree.mk recW "c" (.cons "k" leafZ .nil) 1 2

/-- The single edge record `plot` computes for `treeW` with
`node_width = 30`, `node_height = 20`, `gap_width = 10`, `gap_height = 30`
at the origin: midpoint 15 equals the parent center, so the label is
right-aligned at `15 - 2`. -/
def e0 : EdgeRec := EdgeRec.mk 15 (13, -35) false "k" leafZ (0, -50)

/-- An options list with a duplicated `"value"` label `"a"`. -/
def lDup : RList :=
  .consT (some "a") (.leafR (some "x"))
    (.consT (some "a") (.leafR (some "y")) .nil)

/-- A record whose options duplicate the label `"a"`. -/
def recDup : Rec := .nodeR (some "c") lDup

/-- The tree built from `recDup`: one retained child, the one of the last
duplicate entry. -/
def tDup : Tree := Tree.mk recDup "c" (.cons "a" leafY .nil) 1 2

/-- The tree built from the empty dictionary `{}`. -/
def tEmpty : Tree := Tree.mk (.leafR none) "" .nil 1 1

/-! Section: Lemmas about the children dict -/

/-- Structural induction for `TList` (the mutual-inductive recursor has two
motives, so the plain `induction` tactic cannot be used). -/
theorem tlistInduction {motive : TList → Prop} (h0 : motive .nil)
    (h1 : ∀ k t rest, motive rest → motive (.cons k t rest)) :
    ∀ d, motive d
  | .nil => h0
  | .cons k t rest => h1 k t rest (tlistInduction h0 h1 rest)

theorem optOr_none {α : Type} (a : Option α) : optOr a none = a := by
  cases a <;> rfl

theorem lookup_replaceKey_isSome (d : TList) (k k2 : String) (v : Tree) :
    (TList.lookup (TList.replaceKey d k v) k2).isSome =
      (TList.lookup d k2).isSome := by
  induction d using tlistInduction with
  | h0 => rfl
  | h1 a b rest ih =>
      by_cases hak : a = k
      · subst hak
        by_cases hk2 : a = k2
        · subst hk2
          simp [TList.replaceKey, TList.lookup]
        · simp [TList.replaceKey, TList.lookup, hk2, ih]
      · by_cases hk2 : a = k2
        · subst hk2
          simp [TList.replaceKey, TList.lookup, hak]
        · simp [TList.replaceKey, TList.lookup, hak, hk2, ih]

theorem lookup_replaceKey_self (d : TList) (k : String) (v : Tree)
    (h : (TList.lookup d k).isSome) :
    TList.lookup (TList.replaceKey d k v) k = some v := by
  induction d using tlistInduction with
  | h0 => simp [TList.lookup] at h
  | h1 a b rest ih =>
      by_cases hak : a = k
      · subst hak
        simp [TList.replaceKey, TList.lookup]
      · simp [TList.lookup, hak] at h
        simp [TList.replaceKey, TList.lookup, hak, ih h]

theorem lookup_replaceKey_ne (d : TList) (k k2 : String) (v : Tree)
    (h : k ≠ k2) :
    TList.lookup (TList.replaceKey d k v) k2 = TList.lookup d k2 := by
  induction d using tlistInduction with
  | h0 => rfl
  | h1 a b rest ih =>
      by_cases hak : a = k
      · subst hak
        simp [TList.replaceKey, TList.lookup, h, ih]
      · by_cases hk2 : a = k2
        · subst hk2
          simp [TList.replaceKey, TList.lookup, hak]
        · simp [TList.replaceKey, TList.lookup, hak, hk2, ih]

theorem lookup_snoc (d : TList) (k k2 : String) (v : Tree) :
    TList.lookup (TList.snoc d k v) k2 =
      optOr (TList.lookup d k2) (if k = k2 then some v else none) := by
  induction d using tlistInduction with
  | h0 => simp [TList.snoc, TList.lookup, optOr]
  | h1 a b rest ih =>
      by_cases hk2 : a = k2
      · subst hk2
        simp [TList.snoc, TList.lookup, optOr]
      · simp [TList.snoc, TList.lookup, hk2, ih]

theorem lookup_dictInsert (d : TList) (k k2 : String) (v : Tree) :
    TList.lookup (dictInsert d k v) k2 =
      if k = k2 then some v else TList.lookup d k2 := by
  cases hs : TList.lookup d k with
  | some w =>
      have hs2 : (TList.lookup d k).isSome = true := by rw [hs]; rfl
      rw [dictInsert, hs2, if_pos rfl]
      by_cases hk : k = k2
      · subst hk
        simp [lookup_replaceKey_self d k v hs2]
      · simp [lookup_replaceKey_ne d k k2 v hk, hk]
  | none =>
      have hs2 : (TList.lookup d k).isSome = false := by rw [hs]; rfl
      rw [dictInsert, hs2]
      simp only [Bool.false_eq_true, if_false]
      rw [lookup_snoc]
      by_cases hk : k = k2
      · subst hk
        simp [hs, optOr]
      · simp [hk, optOr_none]

theorem lookup_foldl (ps : List (String × Tree)) :
    ∀ (d : TList) (k : String),
      TList.lookup (ps.foldl (fun d p => dictInsert d p.1 p.2) d) k =
        optOr (lastVal ps k) (TList.lookup d k) := by
  induction ps with
  | nil => intro d k; simp [lastVal, optOr]
  | cons p rest ih =>
      intro d k
      rw [List.foldl_cons, ih]
      rw [lookup_dictInsert]
      show optOr (lastVal rest k) _ = optOr (lastVal (p :: rest) k) _
      cases hlv : lastVal rest k with
      | some w => simp [lastVal, hlv, optOr]
      | none =>
          by_cases hk : p.1 = k
          · simp [lastVal, hlv, hk, optOr]
          · simp [lastVal, hlv, hk, optOr]

theorem lookup_buildDict (ps : List (String × Tree)) (k : String) :
    TList.lookup (buildDict ps) k = lastVal ps k := by
  rw [buildDict, lookup_foldl]
  simp [TList.lookup, optOr_none]

theorem keysNodup_replaceKey (d : TList) (k : String) (v : Tree)
    (h : TList.keysNodup d = true) :
    TList.keysNodup (TList.replaceKey d k v) = true := by
  induction d using tlistInduction with
  | h0 => rfl
  | h1 a b rest ih =>
      simp only [TList.keysNodup, Bool.and_eq_true, Bool.not_eq_true'] at h
      by_cases hak : a = k
      · subst hak
        simp only [TList.replaceKey, if_pos rfl, TList.keysNodup,
          lookup_replaceKey_isSome, Bool.and_eq_true, Bool.not_eq_true']
        exact ⟨h.1, ih h.2⟩
      · simp only [TList.replaceKey, if_neg hak, TList.keysNodup,
          lookup_replaceKey_isSome, Bool.and_eq_true, Bool.not_eq_true']
        exact ⟨h.1, ih h.2⟩

theorem keysNodup_snoc (d : TList) (k : String) (v : Tree)
    (h : TList.keysNodup d = true) (hk : TList.lookup d k = none) :
    TList.keysNodup (TList.snoc d k v) = true := by
  induction d using tlistInduction with
  | h0 => rfl
  | h1 a b rest ih =>
      simp only [TList.keysNodup, Bool.and_eq_true, Bool.not_eq_true'] at h
      have hak : ¬a = k := by
        intro hak
        rw [TList.lookup, if_pos hak] at hk
        exact Option.noConfusion hk
      rw [TList.lookup, if_neg hak] at hk
      simp only [TList.snoc, TList.keysNodup, lookup_snoc, Bool.and_eq_true,
        Bool.not_eq_true']
      refine ⟨?_, ih h.2 hk⟩
      have hla : TList.lookup rest a = none := by
        cases hcase : TList.lookup rest a with
        | none => rfl
        | some w =>
            have := h.1
            rw [hcase] at this
            exact absurd this (by simp)
      have hka : ¬k = a := fun hka => hak hka.symm
      simp [hla, optOr, hka]

theorem keysNodup_dictInsert (d : TList) (k : String) (v : Tree)
    (h : TList.keysNodup d = true) :
    TList.keysNodup (dictInsert d k v) = true := by
  cases hs : TList.lookup d k with
  | some w =>
      have hs2 : (TList.lookup d k).isSome = true := by rw [hs]; rfl
      rw [dictInsert, hs2, if_pos rfl]
      exact keysNodup_replaceKey d k v h
  | none =>
      have hs2 : (TList.lookup d k).isSome = false := by rw [hs]; rfl
      rw [dictInsert, hs2]
      simp only [Bool.false_eq_true, if_false]
      exact keysNodup_snoc d k v h hs

theorem keysNodup_buildDict (ps : List (String × Tree)) :
    TList.keysNodup (buildDict ps) = true := by
  rw [buildDict]
  have : ∀ (d : TList), TList.keysNodup d = true →
      TList.keysNodup (ps.foldl (fun d p => dictInsert d p.1 p.2) d) = true := by
    induction ps with
    | nil => intro d h; exact h
    | cons p rest ih =>
        intro d h
        rw [List.foldl_cons]
        exact ih _ (keysNodup_dictInsert d p.1 p.2 h)
  exact this .nil rfl

theorem length_replaceKey (d : TList) (k : String) (v : Tree) :
    TList.length (TList.replaceKey d k v) = TList.length d := by
  induction d using tlistInduction with
  | h0 => rfl
  | h1 a b rest ih =>
      by_cases hak : a = k
      · simp [TList.replaceKey, hak, TList.length, ih]
      · simp [TList.replaceKey, hak, TList.length, ih]

theorem length_snoc (d : TList) (k : String) (v : Tree) :
    TList.length (TList.snoc d k v) = TList.length d + 1 := by
  induction d using tlistInduction with
  | h0 => rfl
  | h1 a b rest ih => simp [TList.snoc, TList.length, ih]

theorem length_dictInsert (d : TList) (k : String) (v : Tree) :
    TList.length (dictInsert d k v) ≤ TList.length d + 1 := by
  rw [dictInsert]
  by_cases hs : (TList.lookup d k).isSome = true
  · rw [if_pos hs, length_replaceKey]
    omega
  · rw [if_neg hs, length_snoc]

theorem length_buildDict (ps : List (String × Tree)) :
    TList.length (buildDict ps) ≤ ps.length := by
  rw [buildDict]
  have : ∀ (d : TList),
      TList.length (ps.foldl (fun d p => dictInsert d p.1 p.2) d) ≤
        TList.length d + ps.length := by
    induction ps with
    | nil => intro d; simp
    | cons p rest ih =>
        intro d
        rw [List.foldl_cons]
        calc TList.length (rest.foldl (fun d p => dictInsert d p.1 p.2)
                (dictInsert d p.1 p.2)) ≤
              TList.length (dictInsert d p.1 p.2) + rest.length := ih _
          _ ≤ TList.length d + 1 + rest.length := by
              have := length_dictInsert d p.1 p.2
              omega
          _ = TList.length d + (p :: rest).length := by
              simp [List.length_cons]
              omega
  have h := this .nil
  simpa [TList.length] using h

theorem mem_toList_replaceKey (d : TList) (k : String) (v : Tree)
    (p : String × Tree) (h : p ∈ TList.toList (TList.replaceKey d k v)) :
    p = (k, v) ∨ p ∈ TList.toList d := by
  induction d using tlistInduction with
  | h0 => simp [TList.replaceKey, TList.toList] at h
  | h1 a b rest ih =>
      by_cases hak : a = k
      · rw [TList.replaceKey, if_pos hak, TList.toList, List.mem_cons] at h
        rcases h with h | h
        · exact Or.inl h
        · rcases ih h with h2 | h2
          · exact Or.inl h2
          · exact Or.inr (by rw [TList.toList, List.mem_cons]; exact Or.inr h2)
      · rw [TList.replaceKey, if_neg hak, TList.toList, List.mem_cons] at h
        rcases h with h | h
        · exact Or.inr (by rw [TList.toList, List.mem_cons]; exact Or.inl h)
        · rcases ih h with h2 | h2
          · exact Or.inl h2
          · exact Or.inr (by rw [TList.toList, List.mem_cons]; exact Or.inr h2)

theorem toList_snoc (d : TList) (k : String) (v : Tree) :
    TList.toList (TList.snoc d k v) = TList.toList d ++ [(k, v)] := by
  induction d using tlistInduction with
  | h0 => rfl
  | h1 a b rest ih => simp [TList.snoc, TList.toList, ih]

theorem mem_toList_dictInsert (d : TList) (k : String) (v : Tree)
    (p : String × Tree) (h : p ∈ TList.toList (dictInsert d k v)) :
    p = (k, v) ∨ p ∈ TList.toList d := by
  rw [dictInsert] at h
  by_cases hs : (TList.lookup d k).isSome = true
  · rw [if_pos hs] at h
    exact mem_toList_replaceKey d k v p h
  · rw [if_neg hs, toList_snoc, List.mem_append, List.mem_singleton] at h
    rcases h with h | h
    · exact Or.inr h
    · exact Or.inl h

theorem mem_toList_foldl (p : String × Tree) :
    ∀ (ps : List (String × Tree)) (d : TList),
      p ∈ TList.toList (ps.foldl (fun d p => dictInsert d p.1 p.2) d) →
      p ∈ TList.toList d ∨ p ∈ ps := by
  intro ps
  induction ps with
  | nil => intro d h2; exact Or.inl h2
  | cons q rest ih =>
      intro d h2
      rw [List.foldl_cons] at h2
      rcases ih (dictInsert d q.1 q.2) h2 with h3 | h3
      · rcases mem_toList_dictInsert d q.1 q.2 p h3 with h4 | h4
        · exact Or.inr (by rw [List.mem_cons]; exact Or.inl (by rw [h4]))
        · exact Or.inl h4
      · exact Or.inr (List.mem_cons_of_mem q h3)

theorem mem_toList_buildDict (ps : List (String × Tree))
    (p : String × Tree) (h : p ∈ TList.toList (buildDict ps)) : p ∈ ps := by
  rw [buildDict] at h
  rcases mem_toList_foldl p ps .nil h with h2 | h2
  · simp [TList.toList] at h2
  · exact h2

/-! Section: Structure of `fromRec` results -/

theorem json_mkNode (j : Rec) (c : Option String) (ch : TList) :
    Tree.json (mkNode j c ch) = j := rfl

theorem content_mkNode (j : Rec) (c : Option String) (ch : TList) :
    Tree.content (mkNode j c ch) = c.getD "" := rfl

theorem children_mkNode (j : Rec) (c : Option String) (ch : TList) :
    Tree.children (mkNode j c ch) = ch := rfl

theorem fromRec_leaf (c : Option String) :
    fromRec (.leafR c) = .ok (mkNode (.leafR c) c .nil) := rfl

theorem fromRec_node_ok (c : Option String) (opts : RList) (t : Tree)
    (h : fromRec (.nodeR c opts) = .ok t) :
    ∃ ps, fromOpts opts = .ok ps ∧
      t = mkNode (.nodeR c opts) c (buildDict ps) := by
  cases hps : fromOpts opts with
  | error e =>
      rw [fromRec, hps] at h
      exact Except.noConfusion h
  | ok ps =>
      rw [fromRec, hps] at h
      injection h with h
      exact ⟨ps, rfl, h.symm⟩

theorem fromOpts_cons_ok (k : String) (r : Rec) (rest : RList)
    (ps : List (String × Tree))
    (h : fromOpts (.consT (some k) r rest) = .ok ps) :
    ∃ child tail, fromRec r = .ok child ∧ fromOpts rest = .ok tail ∧
      ps = (k, child) :: tail := by
  cases h1 : fromRec r with
  | error e =>
      rw [fromOpts, h1] at h
      exact Except.noConfusion h
  | ok child =>
      cases h2 : fromOpts rest with
      | error e =>
          rw [fromOpts, h1, h2] at h
          exact Except.noConfusion h
      | ok tail =>
          rw [fromOpts, h1, h2] at h
          injection h with h
          exact ⟨child, tail, rfl, rfl, h.symm⟩

theorem json_of_ok (r : Rec) (t : Tree) (h : fromRec r = .ok t) :
    Tree.json t = r := by
  cases r with
  | leafR c =>
      rw [fromRec_leaf] at h
      injection h with h
      rw [← h, json_mkNode]
  | nodeR c opts =>
      rcases fromRec_node_ok c opts t h with ⟨ps, _, ht⟩
      rw [ht, json_mkNode]

theorem content_of_ok (r : Rec) (t : Tree) (h : fromRec r = .ok t) :
    Tree.content t = (recContent r).getD "" := by
  cases r with
  | leafR c =>
      rw [fromRec_leaf] at h
      injection h with h
      rw [← h, content_mkNode]
      rfl
  | nodeR c opts =>
      rcases fromRec_node_ok c opts t h with ⟨ps, _, ht⟩
      rw [ht, content_mkNode]
      rfl

/-! Section: the §3 invariant holds for every constructed node -/

theorem TreeInv.width_pos (t : Tree) (h : TreeInv t) : 1 ≤ Tree.width t := by
  cases h with
  | intro j c children w hgt hnil hne hw hh hrec => exact hw

theorem TreeInv.height_pos (t : Tree) (h : TreeInv t) :
    1 ≤ Tree.height t := by
  cases h with
  | intro j c children w hgt hnil hne hw hh hrec => exact hh

theorem TreeInv.width_eq (t : Tree) (h : TreeInv t)
    (hne : Tree.children t ≠ .nil) :
    Tree.width t = TList.sumWidth (Tree.children t) := by
  cases h with
  | intro j c children w hgt hnil hne2 hw hh hrec =>
      exact (hne2 hne).1

theorem treeInv_mkNode (j : Rec) (c : Option String) (children : TList)
    (hrec : ∀ p ∈ TList.toList children, TreeInv p.2) :
    TreeInv (mkNode j c children) := by
  cases children with
  | nil =>
      exact TreeInv.intro j (c.getD "") .nil 1 1 (fun _ => ⟨rfl, rfl⟩)
        (fun hne => absurd rfl hne) (le_refl 1) (le_refl 1)
        (fun p hp => absurd hp (by simp [TList.toList]))
  | cons k t rest =>
      have hw : 1 ≤ TList.sumWidth (.cons k t rest) := by
        have h1 : TreeInv t := hrec (k, t) (by simp [TList.toList])
        have h2 := TreeInv.width_pos t h1
        rw [TList.sumWidth]
        omega
      exact TreeInv.intro j (c.getD "") (.cons k t rest)
        (TList.sumWidth (.cons k t rest))
        (TList.maxHeight (.cons k t rest) + 1)
        (fun hnil => TList.noConfusion hnil)
        (fun _ => ⟨rfl, Nat.add_comm _ 1⟩) hw
        (Nat.le_add_left 1 _) hrec

theorem invAux : ∀ n : Nat,
    (∀ (r : Rec) (t : Tree), sizeOf r ≤ n → fromRec r = .ok t → TreeInv t) ∧
    (∀ (l : RList) (ps : List (String × Tree)), sizeOf l ≤ n →
      fromOpts l = .ok ps → ∀ p ∈ ps, TreeInv p.2) := by
  intro n
  induction n using Nat.strong_induction_on with
  | _ n ih =>
      constructor
      · intro r t hsz h
        cases r with
        | leafR c =>
            rw [fromRec_leaf] at h
            injection h with h
            rw [← h]
            exact treeInv_mkNode _ _ _ (fun p hp => absurd hp (by simp [TList.toList]))
        | nodeR c opts =>
            rcases fromRec_node_ok c opts t h with ⟨ps, hps, ht⟩
            have hlt : sizeOf opts < n := by
              have : sizeOf opts < sizeOf (Rec.nodeR c opts) := by
                simp only [Rec.nodeR.sizeOf_spec]
                omega
              omega
            rw [ht]
            refine treeInv_mkNode _ _ _ (fun p hp => ?_)
            have hmem : p ∈ ps := mem_toList_buildDict ps p hp
            exact (ih (sizeOf opts) hlt).2 opts ps le_rfl hps p hmem
      · intro l ps hsz h p hp
        cases l with
        | nil =>
            rw [fromOpts] at h
            injection h with h
            rw [← h] at hp
            exact absurd hp (List.not_mem_nil p)
        | consT v r rest =>
            cases v with
            | none =>
                rw [fromOpts] at h
                exact Except.noConfusion h
            | some k =>
                rcases fromOpts_cons_ok k r rest ps h with
                  ⟨child, tail, h1, h2, hps⟩
                have hltr : sizeOf r < n := by
                  have : sizeOf r < sizeOf (RList.consT (some k) r rest) := by
                    simp only [RList.consT.sizeOf_spec]
                    omega
                  omega
                have hltl : sizeOf rest < n := by
                  have : sizeOf rest <
                      sizeOf (RList.consT (some k) r rest) := by
                    simp only [RList.consT.sizeOf_spec]
                    omega
                  omega
                rw [hps] at hp
                rcases List.mem_cons.mp hp with hhead | htail
                · rw [hhead]
                  exact (ih (sizeOf r) hltr).1 r child le_rfl h1
                · exact (ih (sizeOf rest) hltl).2 rest tail le_rfl h2 p htail
        | consN v rest =>
            rw [fromOpts] at h
            exact Except.noConfusion h

/-- Every tree `Tree.__init__` accepts satisfies the §3 invariant,
hereditarily. -/
theorem fromRec_inv (r : Rec) (t : Tree) (h : fromRec r = .ok t) :
    TreeInv t :=
  (invAux (sizeOf r)).1 r t le_rfl h

/-! Section: Construction succeeds exactly on well-keyed records -/

theorem okIffAux : ∀ n : Nat,
    (∀ r : Rec, sizeOf r ≤ n → exOk (fromRec r) = goodRec r) ∧
    (∀ l : RList, sizeOf l ≤ n → exOk (fromOpts l) = goodOpts l) := by
  intro n
  induction n using Nat.strong_induction_on with
  | _ n ih =>
      constructor
      · intro r hsz
        cases r with
        | leafR c => rfl
        | nodeR c opts =>
            have hlt : sizeOf opts < n := by
              have : sizeOf opts < sizeOf (Rec.nodeR c opts) := by
                simp only [Rec.nodeR.sizeOf_spec]
                omega
              omega
            have hopts := (ih (sizeOf opts) hlt).2 opts le_rfl
            cases hps : fromOpts opts with
            | error e =>
                rw [hps] at hopts
                rw [fromRec, hps, goodRec, ← hopts]
                rfl
            | ok ps =>
                rw [hps] at hopts
                rw [fromRec, hps, goodRec, ← hopts]
                rfl
      · intro l hsz
        cases l with
        | nil => rfl
        | consT v r rest =>
            cases v with
            | none => rfl
            | some k =>
                have hltr : sizeOf r < n := by
                  have : sizeOf r < sizeOf (RList.consT (some k) r rest) := by
                    simp only [RList.consT.sizeOf_spec]
                    omega
                  omega
                have hltl : sizeOf rest < n := by
                  have : sizeOf rest <
                      sizeOf (RList.consT (some k) r rest) := by
                    simp only [RList.consT.sizeOf_spec]
                    omega
                  omega
                have hr := (ih (sizeOf r) hltr).1 r le_rfl
                have hl := (ih (sizeOf rest) hltl).2 rest le_rfl
                cases h1 : fromRec r with
                | error e =>
                    rw [h1] at hr
                    rw [fromOpts, h1, goodOpts, ← hr]
                    simp [exOk]
                | ok child =>
                    rw [h1] at hr
                    cases h2 : fromOpts rest with
                    | error e =>
                        rw [h2] at hl
                        rw [fromOpts, h1, h2, goodOpts, ← hr, ← hl]
                        simp [exOk]
                    | ok tail =>
                        rw [h2] at hl
                        rw [fromOpts, h1, h2, goodOpts, ← hr, ← hl]
                        simp [exOk]
        | consN v rest => rfl

theorem fromRec_ok_iff_good (r : Rec) : exOk (fromRec r) = goodRec r :=
  (okIffAux (sizeOf r)).1 r le_rfl

/-! Section: Duplicate labels: the last entry wins -/

/-- Structural induction for `RList`. -/
theorem rlistInduction {motive : RList → Prop} (h0 : motive .nil)
    (h1 : ∀ v r rest, motive rest → motive (.consT v r rest))
    (h2 : ∀ v rest, motive rest → motive (.consN v rest)) :
    ∀ l, motive l
  | .nil => h0
  | .consT v r rest => h1 v r rest (rlistInduction h0 h1 h2 rest)
  | .consN v rest => h2 v rest (rlistInduction h0 h1 h2 rest)

theorem lastVal_fromOpts (k : String) :
    ∀ (l : RList) (ps : List (String × Tree)), fromOpts l = .ok ps →
      (lastTreeRec l k = none ∧ lastVal ps k = none) ∨
      (∃ r2 child, lastTreeRec l k = some r2 ∧ fromRec r2 = .ok child ∧
        lastVal ps k = some child) := by
  intro l
  induction l using rlistInduction with
  | h0 =>
      intro ps h
      injection h with h
      rw [← h]
      exact Or.inl ⟨rfl, rfl⟩
  | h1 v r rest ih =>
      intro ps h
      cases v with
      | none =>
          rw [fromOpts] at h
          exact Except.noConfusion h
      | some v2 =>
          rcases fromOpts_cons_ok v2 r rest ps h with ⟨child, tail, hc, ht, hps⟩
          rw [hps]
          rcases ih tail ht with ⟨hn1, hn2⟩ | ⟨r2, c2, ha, hb, hcc⟩
          · by_cases hv : v2 = k
            · refine Or.inr ⟨r, child, ?_, hc, ?_⟩
              · simp [lastTreeRec, hn1, hv]
              · simp [lastVal, hn2, hv]
            · refine Or.inl ⟨?_, ?_⟩
              · simp [lastTreeRec, hn1, hv]
              · simp [lastVal, hn2, hv]
          · refine Or.inr ⟨r2, c2, ?_, hb, ?_⟩
            · simp only [lastTreeRec, ha]
            · simp only [lastVal, hcc]
  | h2 v rest ih =>
      intro ps h
      rw [fromOpts] at h
      exact Except.noConfusion h

/-! Section: Total-width arithmetic -/

theorem sumTotalWidth_eq : ∀ (l : TList) (nW gW : ℚ),
    sumTotalWidth l nW gW =
      (TList.sumWidth l : ℚ) * nW +
        ((TList.sumWidth l : ℚ) - (TList.length l : ℚ)) * gW := by
  intro l
  induction l using tlistInduction with
  | h0 =>
      intro nW gW
      simp [sumTotalWidth, TList.sumWidth, TList.length]
  | h1 a t rest ih =>
      intro nW gW
      rw [sumTotalWidth, Tree.compute_total_width, ih]
      rw [TList.sumWidth, TList.length]
      push_cast
      ring

/-! Section: Edge-label geometry of `plot` -/

theorem edgeGo_spec :
    ∀ (children : TList) (ptw nW nH gW gH xI yI xExit : ℚ) (e : EdgeRec),
      e ∈ edgeGo ptw nW nH gW gH xI yI children xExit →
      (EdgeRec.xLabel e = ((ptw / 2 + xI) +
          (Tree.compute_total_width (EdgeRec.child e) nW gW / 2 +
            (EdgeRec.childInit e).1)) / 2 ∧
        (EdgeRec.textPos e).2 =
          ((-nH / 2 + yI) + (-nH / 2 + (EdgeRec.childInit e).2)) / 2 ∧
        (EdgeRec.xLabel e > ptw / 2 + xI →
          EdgeRec.leftAligned e = true ∧
            (EdgeRec.textPos e).1 = EdgeRec.xLabel e + 2) ∧
        (EdgeRec.xLabel e ≤ ptw / 2 + xI →
          EdgeRec.leftAligned e = false ∧
            (EdgeRec.textPos e).1 = EdgeRec.xLabel e - 2)) := by
  intro children
  induction children using tlistInduction with
  | h0 =>
      intro ptw nW nH gW gH xI yI xExit e h
      exact absurd h (by simp [edgeGo])
  | h1 name child rest ih =>
      intro ptw nW nH gW gH xI yI xExit e h
      simp only [edgeGo] at h
      rcases List.mem_cons.mp h with hhead | htail
      · by_cases hcond :
            (ptw / 2 + xI + xExit +
              Tree.compute_total_width child nW gW / 2) / 2 > ptw / 2 + xI
        · rw [if_pos hcond] at hhead
          rw [hhead]
          refine ⟨by ring, by ring, fun _ => ⟨rfl, rfl⟩, fun hle => ?_⟩
          exact absurd hcond (not_lt.mpr hle)
        · rw [if_neg hcond] at hhead
          rw [hhead]
          refine ⟨by ring, by ring, fun hgt => ?_, fun _ => ⟨rfl, rfl⟩⟩
          exact absurd hgt hcond
      · exact ih ptw nW nH gW gH xI yI
          (xExit + Tree.compute_total_width child nW gW + gW) e htail

/-! Section: Remaining helper lemmas -/

theorem fromOpts_bad (l : RList) (h : hasBadEntry l = true) :
    fromOpts l = .error SchemaError.mk := by
  induction l using rlistInduction with
  | h0 => exact absurd h (by simp [hasBadEntry])
  | h1 v r rest ih =>
      cases v with
      | none => rfl
      | some k =>
          rw [hasBadEntry] at h
          have hrest := ih h
          cases h1 : fromRec r with
          | error e =>
              cases e
              rw [fromOpts, h1]
          | ok child =>
              rw [fromOpts, h1, hrest]
  | h2 v rest ih => rfl

theorem fromOpts_length : ∀ (l : RList) (ps : List (String × Tree)),
    fromOpts l = .ok ps → ps.length = RList.length l := by
  intro l
  induction l using rlistInduction with
  | h0 =>
      intro ps h
      injection h with h
      rw [← h]
      rfl
  | h1 v r rest ih =>
      intro ps h
      cases v with
      | none =>
          rw [fromOpts] at h
          exact Except.noConfusion h
      | some k =>
          rcases fromOpts_cons_ok k r rest ps h with ⟨child, tail, _, ht, hps⟩
          rw [hps, List.length_cons, RList.length, ih tail ht]
  | h2 v rest ih =>
      intro ps h
      rw [fromOpts] at h
      exact Except.noConfusion h

theorem width_mkNode_ne (j : Rec) (c : Option String) (ch : TList)
    (hne : ch ≠ .nil) : Tree.width (mkNode j c ch) = TList.sumWidth ch := by
  cases ch with
  | nil => exact absurd rfl hne
  | cons k t rest => rfl

theorem height_mkNode (j : Rec) (c : Option String) (ch : TList) :
    Tree.height (mkNode j c ch) = TList.maxHeight ch + 1 := rfl

theorem edgeGo_length : ∀ (children : TList) (ptw nW nH gW gH xI yI xE : ℚ),
    (edgeGo ptw nW nH gW gH xI yI children xE).length =
      TList.length children := by
  intro children
  induction children using tlistInduction with
  | h0 => intro ptw nW nH gW gH xI yI xE; rfl
  | h1 name child rest ih =>
      intro ptw nW nH gW gH xI yI xE
      rw [edgeGo]
      simp only [List.length_cons, TList.length]
      rw [ih]

/-- Evaluation of the edge loop on the concrete one-child tree `treeW`. -/
theorem edgeRecs_treeW_eval : edgeRecs treeW 30 20 10 30 0 0 = [e0] := by
  simp only [edgeRecs, edgeGo, treeW, Tree.children, Tree.compute_total_width,
    Tree.width, leafZ, e0]
  norm_num [EdgeRec.mk.injEq, Prod.mk.injEq]

/-! Section: The claims -/

/-- C1: for every constructed `Tree` node, hereditarily: a node with no
children has `width = 1` and `height = 1`; a node with children has
`width` equal to the sum of its children's widths and `height` equal to
`1 +` the maximum of its children's heights; consequently `width ≥ 1` and
`height ≥ 1` for every node (all packaged in `TreeInv`). -/
theorem c1_invariants (r : Rec) (t : Tree) (h : fromRec r = .ok t) :
    TreeInv t :=
  fromRec_inv r t h

/-- Witness for C1 at the concrete record `rec2`. -/
theorem c1_invariants_witness : TreeInv tree2 :=
  c1_invariants rec2 tree2 rfl

/-- C2: parsing `["if a:", "    x", "else:", "    y"]` produces the record
`{"content": "a", "options": [{"value": "a", "tree": {"content": "x"}},
{"value": "else", "tree": {"content": "y"}}]}`; constructing the tree from
it yields a branch with content `"a"` and exactly the two children
`"a" ↦ Leaf "x"` and `"else" ↦ Leaf "y"` (the reserved default label is
`"else"`), in declaration order, with `width = 2` and `height = 2`. -/
theorem c2_parse_example :
    parsePythonTop ["if a:", "    x", "else:", "    y"] = .ok rec2 ∧
      fromRec rec2 = .ok tree2 ∧
      Tree.content tree2 = "a" ∧
      Tree.children tree2 = .cons "a" leafX (.cons "else" leafY .nil) ∧
      Tree.width tree2 = 2 ∧ Tree.height tree2 = 2 :=
  ⟨rfl, rfl, rfl, rfl, rfl, rfl⟩

/-- C3: for every well-formed record (one `Tree.__init__` accepts), the
stored serialization of the constructed tree is the input record itself, so
deserializing the serialized output and serializing again is the identity
on serialized output. -/
theorem c3_roundtrip (r : Rec) (t : Tree) (h : fromRec r = .ok t) :
    serialize t = r ∧ fromRec (serialize t) = .ok t := by
  have hj := json_of_ok r t h
  rw [serialize, hj]
  exact ⟨rfl, h⟩

/-- Witness for C3 at the concrete record `rec2`. -/
theorem c3_roundtrip_witness :
    serialize tree2 = rec2 ∧ fromRec (serialize tree2) = .ok tree2 :=
  c3_roundtrip rec2 tree2 rfl

/-- C4: for every constructed node with at least one child and all
parameter values `nodeW`, `gapW`, the node's total width equals the sum of
its children's total widths plus `(childCount − 1) * gapW`. -/
theorem c4_total_width (r : Rec) (t : Tree) (h : fromRec r = .ok t)
    (hne : Tree.children t ≠ .nil) (nW gW : ℚ) :
    Tree.compute_total_width t nW gW =
      sumTotalWidth (Tree.children t) nW gW +
        ((TList.length (Tree.children t) : ℚ) - 1) * gW := by
  have hinv := fromRec_inv r t h
  have hw := TreeInv.width_eq t hinv hne
  rw [Tree.compute_total_width, hw, sumTotalWidth_eq]
  ring

/-- Witness for C4 at the concrete tree `tree2` with `nodeW = 30`,
`gapW = 10`. -/
theorem c4_total_width_witness :
    Tree.compute_total_width tree2 30 10 =
      sumTotalWidth (Tree.children tree2) 30 10 +
        ((TList.length (Tree.children tree2) : ℚ) - 1) * 10 :=
  c4_total_width rec2 tree2 rfl (fun hne => TList.noConfusion hne) 30 10

/-- C5: for every record whose options list has an entry lacking the
`"value"` key or the `"tree"` key, construction fails with the schema
`KeyError` and produces no tree (the result is an `Except.error`, never an
`Except.ok`). -/
theorem c5_schema_error (c : Option String) (l : RList)
    (h : hasBadEntry l = true) :
    fromRec (.nodeR c l) = .error SchemaError.mk := by
  rw [fromRec, fromOpts_bad l h]

/-- Witness for C5 at a record whose single entry lacks `"tree"`. -/
theorem c5_schema_error_witness :
    fromRec (.nodeR (some "c") (.consN (some "x") .nil)) =
      .error SchemaError.mk :=
  c5_schema_error (some "c") (.consN (some "x") .nil) rfl

/-- C6 counterexample: parsing the zero-line input `[]` does not yield
`Leaf{content = ""}`; it fails with the `IndexError` that
`re.search(r"^(\s*)", code[0])` raises on an empty list. -/
theorem c6_counterexample :
    parsePythonTop [] = .error PErr.indexError ∧
      parsePythonTop [] ≠ .ok (Rec.leafR (some "")) := by
  refine ⟨rfl, fun h => ?_⟩
  rw [show parsePythonTop [] = Except.error PErr.indexError from rfl] at h
  exact Except.noConfusion h

/-- C6 amended: parsing a zero-line input sequence fails with an index
error (`parse_python` reads `code[0]` unconditionally), for every fuel and
every inherited `permeated` accumulator; empty input is an error, not an
empty leaf. -/
theorem c6_amended (fuel : Nat) (p : List (List Char)) :
    parsePython (fuel + 1) [] p = .error PErr.indexError := rfl

/-- C7: for every parent node and each of its children, the computed edge
label sits at the exact midpoint of the parent's and the child's centers
(horizontally, `x_label`) and on the row mid-gap between the two depths
(vertically, the midpoint of the two center rows); when the midpoint is
strictly right of the parent's center the text is left-aligned at
`x_label + 2`, otherwise right-aligned at `x_label - 2`. -/
theorem c7_edge_labels (t : Tree) (nW nH gW gH xI yI : ℚ) (e : EdgeRec)
    (h : e ∈ edgeRecs t nW nH gW gH xI yI) :
    EdgeRec.xLabel e = ((nodeCenter t nW nH gW xI yI).1 +
        (nodeCenter (EdgeRec.child e) nW nH gW (EdgeRec.childInit e).1
          (EdgeRec.childInit e).2).1) / 2 ∧
      (EdgeRec.textPos e).2 = ((nodeCenter t nW nH gW xI yI).2 +
        (nodeCenter (EdgeRec.child e) nW nH gW (EdgeRec.childInit e).1
          (EdgeRec.childInit e).2).2) / 2 ∧
      (EdgeRec.xLabel e > (nodeCenter t nW nH gW xI yI).1 →
        EdgeRec.leftAligned e = true ∧
          (EdgeRec.textPos e).1 = EdgeRec.xLabel e + 2) ∧
      (EdgeRec.xLabel e ≤ (nodeCenter t nW nH gW xI yI).1 →
        EdgeRec.leftAligned e = false ∧
          (EdgeRec.textPos e).1 = EdgeRec.xLabel e - 2) := by
  rw [edgeRecs] at h
  have hs := edgeGo_spec (Tree.children t) (Tree.compute_total_width t nW gW)
    nW nH gW gH xI yI xI e h
  simpa [nodeCenter] using hs

/-- Witness for C7: the single edge of `treeW`, whose midpoint coincides
with the parent center, is right-aligned at `x_label - 2`. -/
theorem c7_edge_labels_witness :
    EdgeRec.xLabel e0 = ((nodeCenter treeW 30 20 10 0 0).1 +
        (nodeCenter (EdgeRec.child e0) 30 20 10 (EdgeRec.childInit e0).1
          (EdgeRec.childInit e0).2).1) / 2 ∧
      EdgeRec.leftAligned e0 = false ∧
      (EdgeRec.textPos e0).1 = EdgeRec.xLabel e0 - 2 := by
  have hmem : e0 ∈ edgeRecs treeW 30 20 10 30 0 0 := by
    rw [edgeRecs_treeW_eval]
    exact List.mem_singleton_self e0
  have h := c7_edge_labels treeW 30 20 10 30 0 0 e0 hmem
  refine ⟨h.1, h.2.2.2 ?_⟩
  norm_num [e0, nodeCenter, Tree.compute_total_width, Tree.width, treeW]

/-- C8 counterexample: invoking the layout computation with non-positive
configuration values does not fail: with `node_width = -30` and
`gap_width = -10` it silently returns the degenerate total width `-30`,
and the edge loop still emits one geometry record per child. -/
theorem c8_counterexample :
    Tree.compute_total_width treeW (-30) (-10) = -30 ∧
      (edgeRecs treeW (-30) (-20) (-10) (-5) 0 0).length = 1 := by
  constructor
  · norm_num [Tree.compute_total_width, Tree.width, treeW]
  · rw [edgeRecs, edgeGo_length]
    rfl

/-- C8 amended: the layout computation performs no validation of the
configuration values: for every tree and all values of `nodeWidth`,
`nodeHeight`, `gapWidth`, `gapHeight` — positive or not — it returns
geometry without error, one edge record per child. -/
theorem c8_amended (t : Tree) (nW nH gW gH xI yI : ℚ) :
    (edgeRecs t nW nH gW gH xI yI).length =
      TList.length (Tree.children t) := by
  rw [edgeRecs, edgeGo_length]

/-- C9: construction succeeds exactly when every options entry,
recursively, carries both a `"value"` and a `"tree"` key — in particular a
missing `"content"` key never causes a failure — and whenever it succeeds
on a record lacking `"content"` (the empty dictionary included), the
node's content is `""`. -/
theorem c9_missing_content (r : Rec) :
    (exOk (fromRec r) = goodRec r) ∧
      (recContent r = none → ∀ t, fromRec r = .ok t →
        Tree.content t = "") := by
  refine ⟨fromRec_ok_iff_good r, fun hc t h => ?_⟩
  rw [content_of_ok r t h, hc]
  rfl

/-- Witness for C9 at the empty dictionary `{}`. -/
theorem c9_missing_content_witness :
    exOk (fromRec (Rec.leafR none)) = goodRec (Rec.leafR none) ∧
      Tree.content tEmpty = "" :=
  ⟨(c9_missing_content (Rec.leafR none)).1,
    (c9_missing_content (Rec.leafR none)).2 rfl tEmpty rfl⟩

/-- C10: for every record construction accepts, the children mapping has
pairwise-distinct labels; the child retained under a label is the one built
from the last options entry carrying that label; the child count is at most
the options count (strictly smaller under duplication); and width/height
are computed over the retained children only. -/
theorem c10_duplicate_labels (c : Option String) (l : RList) (t : Tree)
    (h : fromRec (.nodeR c l) = .ok t) :
    TList.keysNodup (Tree.children t) = true ∧
      (∀ k, TList.lookup (Tree.children t) k =
        (lastTreeRec l k).bind (fun r => exToOption (fromRec r))) ∧
      TList.length (Tree.children t) ≤ RList.length l ∧
      (Tree.children t ≠ .nil →
        Tree.width t = TList.sumWidth (Tree.children t) ∧
        Tree.height t = 1 + TList.maxHeight (Tree.children t)) := by
  rcases fromRec_node_ok c l t h with ⟨ps, hps, ht⟩
  subst ht
  rw [children_mkNode]
  refine ⟨keysNodup_buildDict ps, fun k => ?_, ?_, fun hne => ?_⟩
  · rw [lookup_buildDict]
    rcases lastVal_fromOpts k l ps hps with ⟨h1, h2⟩ | ⟨r2, child, h1, h2, h3⟩
    · rw [h1, h2]
      rfl
    · rw [h1, h3]
      show some child = exToOption (fromRec r2)
      rw [h2]
      rfl
  · calc TList.length (buildDict ps) ≤ ps.length := length_buildDict ps
      _ = RList.length l := fromOpts_length l ps hps
  · exact ⟨width_mkNode_ne _ _ _ hne,
      by rw [height_mkNode]; exact Nat.add_comm _ 1⟩

/-- Witness for C10 at the duplicated-label record `recDup`: the retained
child under `"a"` is the one of the last entry, and only one child remains
out of two options. -/
theorem c10_duplicate_labels_witness :
    TList.lookup (Tree.children tDup) "a" =
      (lastTreeRec lDup "a").bind (fun r => exToOption (fromRec r)) ∧
      TList.length (Tree.children tDup) ≤ RList.length lDup :=
  ⟨(c10_duplicate_labels (some "c") lDup tDup rfl).2.1 "a",
    (c10_duplicate_labels (some "c") lDup tDup rfl).2.2.1⟩

end TreeDrawing
